import Mathlib

/-!
Verification of the nebula row-encoding engine (Cord chained append buffer,
RowWriter, RowSetWriter) against its natural-language specification.

The C++ sources embedded here are:
- src/common/base/Cord.h / Cord.cpp  — the chained append buffer,
- src/dataman/RowWriter.cpp          — the schema-driven row writer,
- src/dataman/RowSetWriter.cpp       — the row-set aggregator.

Bytes are modelled as natural numbers (every byte produced by the model is
below 256).  Machine integers written with memcpy on the x86 host are
little-endian, which `leBytes` reproduces.  folly::IOBuf chains become lists
of `Segment`s; the null head pointer is the empty list.
-/

namespace NebulaSpec

/-- Little-endian byte serialization: `leBytes v n` is what `memcpy` of the
low `n` bytes of integer `v` produces on the little-endian host. -/
def leBytes : Nat → Nat → List Nat
  | _, 0 => []
  | v, n + 1 => v % 256 :: leBytes (v / 256) n

/-- Read back a little-endian byte sequence (the decoder's view of `leBytes`). -/
def fromLEBytes : List Nat → Nat
  | [] => 0
  | b :: bs => b + 256 * fromLEBytes bs

/-- One memory block of a folly::IOBuf chain: its allocated capacity and the
bytes currently written into it (`data`, with `length ≤ cap` as tailroom
invariant). -/
structure Segment where
  cap : Nat
  data : List Nat
deriving DecidableEq, Repr

/-- Used length of a segment, `IOBuf::length()`. -/
def Segment.length (s : Segment) : Nat := s.data.length

/-- Free room at the end of a segment, `IOBuf::tailroom()`. -/
def Segment.tailroom (s : Segment) : Nat := s.cap - s.data.length

/-- The Cord chained append buffer (Cord.h).  `segs` is the IOBuf chain in
chain order (empty list = null `head_`); `size_` is the cached data size the
class maintains by hand. -/
structure Cord where
  segs : List Segment
  size_ : Nat
deriving DecidableEq, Repr

/-- Alignment quantum, `Cord::kBufferAlignment = 256UL`. -/
def kBufferAlignment : Nat := 256

/-- Growth ceiling, `Cord::kMaxGrowthSize = 256UL << 10` (256 KiB). -/
def kMaxGrowthSize : Nat := 256 * 1024

/-- Round a size up to the alignment quantum, `Cord::alignedSize`.  The
source writes `(size + kBufferAlignment - 1) & ~(kBufferAlignment - 1)`,
which for the power-of-two alignment equals this division form. -/
def alignedSize (size : Nat) : Nat :=
  (size + kBufferAlignment - 1) / kBufferAlignment * kBufferAlignment

/-- A default-constructed Cord: null head, zero size. -/
def Cord.new : Cord := ⟨[], 0⟩

/-- Concatenated data of a segment list in chain order. -/
def segsContent (l : List Segment) : List Nat := (l.map Segment.data).flatten

/-- Logical content of a Cord: the concatenation, in chain order, of the
per-segment views that `Cord::apply` / `visit` delivers to the visitor. -/
def Cord.content (c : Cord) : List Nat := segsContent c.segs

/-- Last segment of the chain (`head_->prev()`, the write tail), with a
dummy default for the impossible empty case. -/
def lastSegD (l : List Segment) : Segment := l.getLastD ⟨0, []⟩

/-- Apply a function to the last element of a list, leaving the rest alone
(models mutation through the `last()` pointer). -/
def updateLast (f : Segment → Segment) : List Segment → List Segment
  | [] => []
  | [s] => [f s]
  | s :: t :: r => s :: updateLast f (t :: r)

/-- Translation of `Cord::makeRoomForWriteSlow` (Cord.cpp lines 66-81).
If the tail is at most half full, the same segment is grown in place
(`IOBuf::reserve` is external to the surveyed sources; following the spec's
description, growing in place makes the segment's capacity
`roundUp(capacity + needed)`).  Otherwise a new tail segment is chained
whose capacity is the doubled capacity first clamped to `kMaxGrowthSize`
and then raised to at least `size`. -/
def Cord.makeRoomForWriteSlow (c : Cord) (size : Nat) : Cord :=
  let last := lastSegD c.segs
  let room := last.tailroom
  let length := last.length
  let capacity := last.cap
  if length ≤ capacity / 2 then
    let need := size - room
    { c with segs := updateLast (fun s => { s with cap := alignedSize (capacity + need) }) c.segs }
  else
    let newCapacity0 := if capacity * 2 > kMaxGrowthSize then kMaxGrowthSize else capacity * 2
    let newCapacity := if newCapacity0 > size then newCapacity0 else size
    { c with segs := c.segs ++ [⟨newCapacity, []⟩] }

/-- Translation of `Cord::makeRoomForWrite` (Cord.h lines 83-94): allocate
the first segment when the chain is empty, return when the tail already has
room, otherwise take the slow path. -/
def Cord.makeRoomForWrite (c : Cord) (size : Nat) : Cord :=
  if c.segs = [] then
    { c with segs := [⟨alignedSize size, []⟩] }
  else if size ≤ (lastSegD c.segs).tailroom then c
  else c.makeRoomForWriteSlow size

/-- The memcpy-at-tail plus `Cord::advance` step shared by every append
overload: the bytes land at the end of the tail segment's data and the
cached `size_` grows by their count. -/
def Cord.advanceWrite (c : Cord) (bs : List Nat) : Cord :=
  { segs := updateLast (fun s => { s with data := s.data ++ bs }) c.segs
    size_ := c.size_ + bs.length }

/-- One append operation (`Cord::operator<<` for strings / string pieces, and
for scalars once their fixed-width little-endian image is taken, and
`Cord::write`): make room, copy at the tail, advance. -/
def Cord.write (c : Cord) (bs : List Nat) : Cord :=
  (c.makeRoomForWrite bs.length).advanceWrite bs

/-- Translation of `Cord::prependHeader`: the header buffer becomes the new
chain head; with a null head it simply becomes the whole chain (and `size_`
is set rather than increased). -/
def Cord.prependHeader (c : Cord) (hdr : Segment) : Cord :=
  if c.segs = [] then ⟨[hdr], hdr.data.length⟩
  else ⟨hdr :: c.segs, c.size_ + hdr.data.length⟩

/-- Translation of `Cord::operator<<(const Cord&)` (Cord.cpp lines 47-63).
An empty right-hand side returns immediately; otherwise the content of `rhs`
is deep-copied into a single fresh segment of capacity `rhs.size_` which is
chained after the existing segments via `head_->prependChain`.  When the
chain is empty (`head_` null) that call dereferences a null pointer, which
the model makes `none`. -/
def Cord.appendCord (c : Cord) (rhs : Cord) : Option Cord :=
  if rhs.size_ = 0 then some c
  else if c.segs = [] then none
  else some ⟨c.segs ++ [⟨rhs.size_, rhs.content⟩], c.size_ + rhs.size_⟩

/-- Translation of `Cord::appendTo`: nothing is appended when the Cord is
empty (per the cached `size_`); otherwise the visitor of `Cord::apply`
appends each per-segment view in chain order. -/
def Cord.appendTo (c : Cord) (acc : List Nat) : List Nat :=
  if c.size_ = 0 then acc
  else c.segs.foldl (fun a s => a ++ s.data) acc

/-- Translation of `Cord::str`: flatten the content into a fresh string. -/
def Cord.str (c : Cord) : List Nat := c.appendTo []

/-- Every segment of the chain respects its capacity. -/
def capsOk (l : List Segment) : Prop := ∀ s ∈ l, s.data.length ≤ s.cap

/-- Well-formedness of a Cord: capacities are respected and the cached
`size_` agrees with the true content length (the `DCHECK`ed invariant of
`Cord::size`). -/
def Cord.wf (c : Cord) : Prop := capsOk c.segs ∧ c.size_ = c.content.length

instance : DecidablePred Cord.wf := fun c => by
  unfold Cord.wf capsOk
  infer_instance

theorem leBytes_length (v n : Nat) : (leBytes v n).length = n := by
  induction n generalizing v with
  | zero => rfl
  | succ n ih => simp [leBytes, ih]

theorem fromLEBytes_leBytes (v n : Nat) (h : v < 2 ^ (8 * n)) :
    fromLEBytes (leBytes v n) = v := by
  induction n generalizing v with
  | zero =>
    simp only [Nat.mul_zero, pow_zero, Nat.lt_one_iff] at h
    simp [leBytes, fromLEBytes, h]
  | succ n ih =>
    have h2 : v / 256 < 2 ^ (8 * n) := by
      have hpow : 2 ^ (8 * (n + 1)) = 2 ^ (8 * n) * 256 := by ring
      rw [hpow] at h
      omega
    simp only [leBytes, fromLEBytes, ih (v / 256) h2]
    omega

theorem alignedSize_ge (n : Nat) : n ≤ alignedSize n := by
  simp only [alignedSize, kBufferAlignment]
  omega

theorem segsContent_nil : segsContent [] = [] := rfl

theorem segsContent_cons (s : Segment) (l : List Segment) :
    segsContent (s :: l) = s.data ++ segsContent l := by
  simp [segsContent]

theorem segsContent_append (l₁ l₂ : List Segment) :
    segsContent (l₁ ++ l₂) = segsContent l₁ ++ segsContent l₂ := by
  simp [segsContent]

theorem updateLast_concat (f : Segment → Segment) (front : List Segment) (s : Segment) :
    updateLast f (front ++ [s]) = front ++ [f s] := by
  induction front with
  | nil => rfl
  | cons a t ih =>
    cases t with
    | nil => rfl
    | cons b r => simpa [updateLast] using ih

theorem lastSegD_concat (front : List Segment) (s : Segment) :
    lastSegD (front ++ [s]) = s := by
  simp [lastSegD]

theorem makeRoomForWriteSlow_eq (front : List Segment) (b : Segment) (sz n : Nat) :
    (Cord.mk (front ++ [b]) sz).makeRoomForWriteSlow n =
      if b.length ≤ b.cap / 2 then
        Cord.mk (front ++ [{ b with cap := alignedSize (b.cap + (n - b.tailroom)) }]) sz
      else
        Cord.mk ((front ++ [b]) ++ [⟨max (min (b.cap * 2) kMaxGrowthSize) n, []⟩]) sz := by
  simp only [Cord.makeRoomForWriteSlow, lastSegD_concat]
  by_cases hhalf : b.length ≤ b.cap / 2
  · rw [if_pos hhalf, if_pos hhalf, updateLast_concat]
  · rw [if_neg hhalf, if_neg hhalf]
    have h1 : (if b.cap * 2 > kMaxGrowthSize then kMaxGrowthSize else b.cap * 2)
        = min (b.cap * 2) kMaxGrowthSize := by
      split <;> omega
    have h2 : ∀ A : Nat, (if A > n then A else n) = max A n := by
      intro A
      split <;> omega
    rw [h1, h2]

theorem makeRoomForWrite_spec (c : Cord) (n : Nat) :
    ∃ front s, (c.makeRoomForWrite n).segs = front ++ [s] ∧
      segsContent (front ++ [s]) = segsContent c.segs ∧
      (c.makeRoomForWrite n).size_ = c.size_ ∧
      n ≤ s.tailroom ∧
      (capsOk c.segs → capsOk (front ++ [s])) := by
  obtain ⟨segs, sz⟩ := c
  rcases List.eq_nil_or_concat segs with hnil | ⟨L, b, hLb⟩
  · subst hnil
    refine ⟨[], ⟨alignedSize n, []⟩, ?_, ?_, ?_, ?_, ?_⟩
    · simp [Cord.makeRoomForWrite]
    · simp [segsContent]
    · simp [Cord.makeRoomForWrite]
    · simpa [Segment.tailroom] using alignedSize_ge n
    · intro _ s hs
      simp at hs
      simp [hs]
  · rw [List.concat_eq_append] at hLb
    subst hLb
    by_cases hfast : n ≤ b.tailroom
    · have hres : (Cord.mk (L ++ [b]) sz).makeRoomForWrite n = Cord.mk (L ++ [b]) sz := by
        simp [Cord.makeRoomForWrite, lastSegD_concat, hfast]
      rw [hres]
      exact ⟨L, b, rfl, rfl, rfl, hfast, fun h => h⟩
    · have hres : (Cord.mk (L ++ [b]) sz).makeRoomForWrite n
          = (Cord.mk (L ++ [b]) sz).makeRoomForWriteSlow n := by
        simp [Cord.makeRoomForWrite, lastSegD_concat, hfast]
      rw [hres, makeRoomForWriteSlow_eq]
      by_cases hhalf : b.length ≤ b.cap / 2
      · rw [if_pos hhalf]
        refine ⟨L, { b with cap := alignedSize (b.cap + (n - b.tailroom)) }, rfl, ?_, rfl, ?_, ?_⟩
        · simp [segsContent]
        · have hge := alignedSize_ge (b.cap + (n - b.tailroom))
          simp only [Segment.tailroom, Segment.length] at *
          omega
        · intro hcaps s hs
          rcases List.mem_append.1 hs with hsL | hsb
          · exact hcaps s (List.mem_append.2 (Or.inl hsL))
          · have hb := hcaps b (List.mem_append.2 (Or.inr (List.mem_singleton.2 rfl)))
            have hge := alignedSize_ge (b.cap + (n - b.tailroom))
            simp at hsb
            subst hsb
            simp only [Segment.tailroom, Segment.length] at *
            omega
      · rw [if_neg hhalf]
        refine ⟨L ++ [b], ⟨max (min (b.cap * 2) kMaxGrowthSize) n, []⟩, rfl, ?_, rfl, ?_, ?_⟩
        · simp [segsContent_append, segsContent]
        · simp only [Segment.tailroom, List.length_nil, Nat.sub_zero]
          omega
        · intro hcaps s hs
          rcases List.mem_append.1 hs with hsL | hsb
          · exact hcaps s hsL
          · simp at hsb
            simp [hsb]

theorem write_spec (c : Cord) (bs : List Nat) :
    (c.write bs).content = c.content ++ bs ∧
    (c.write bs).size_ = c.size_ + bs.length ∧
    (capsOk c.segs → capsOk (c.write bs).segs) ∧
    (c.write bs).segs ≠ [] := by
  obtain ⟨front, s, hsegs, hcontent, hsize, hroom, hcaps⟩ := makeRoomForWrite_spec c bs.length
  have hsegs2 : (c.write bs).segs = front ++ [{ s with data := s.data ++ bs }] := by
    show updateLast (fun t => { t with data := t.data ++ bs }) (c.makeRoomForWrite bs.length).segs
        = front ++ [{ s with data := s.data ++ bs }]
    rw [hsegs, updateLast_concat]
  have hsize2 : (c.write bs).size_ = c.size_ + bs.length := by
    show (c.makeRoomForWrite bs.length).size_ + bs.length = c.size_ + bs.length
    rw [hsize]
  refine ⟨?_, hsize2, ?_, ?_⟩
  · show segsContent (c.write bs).segs = segsContent c.segs ++ bs
    rw [hsegs2, segsContent_append]
    have h1 : segsContent [{ s with data := s.data ++ bs }] = s.data ++ bs := by
      simp [segsContent]
    have h2 : segsContent front ++ s.data = segsContent c.segs := by
      rw [← hcontent, segsContent_append]
      simp [segsContent]
    rw [h1, ← List.append_assoc, h2]
  · intro h
    have hall := hcaps h
    rw [hsegs2]
    intro t ht
    rcases List.mem_append.1 ht with htf | hts
    · exact hall t (List.mem_append.2 (Or.inl htf))
    · have hs := hall s (List.mem_append.2 (Or.inr (List.mem_singleton.2 rfl)))
      simp at hts
      subst hts
      simp only [Segment.tailroom] at hroom
      simp only [List.length_append]
      omega
  · rw [hsegs2]
    simp

theorem write_wf (c : Cord) (bs : List Nat) (h : c.wf) :
    (c.write bs).wf ∧ (c.write bs).content = c.content ++ bs ∧
    (c.write bs).size_ = c.size_ + bs.length := by
  obtain ⟨hcontent, hsize, hcaps, _⟩ := write_spec c bs
  obtain ⟨hc1, hc2⟩ := h
  refine ⟨⟨hcaps hc1, ?_⟩, hcontent, hsize⟩
  rw [hsize, hcontent, List.length_append, hc2]

theorem foldl_append_data (l : List Segment) (acc : List Nat) :
    l.foldl (fun a s => a ++ s.data) acc = acc ++ segsContent l := by
  induction l generalizing acc with
  | nil => simp [segsContent]
  | cons s t ih => simp [List.foldl_cons, ih, segsContent_cons]

theorem str_eq_content (c : Cord) (h : c.wf) : c.str = c.content := by
  unfold Cord.str Cord.appendTo
  by_cases h0 : c.size_ = 0
  · rw [if_pos h0]
    have h2 := h.2
    rw [h0] at h2
    exact (List.eq_nil_of_length_eq_zero h2.symm).symm
  · rw [if_neg h0, foldl_append_data]
    simp [Cord.content]

theorem foldl_write_wf (ws : List (List Nat)) (c : Cord) (h : c.wf) :
    (ws.foldl Cord.write c).wf ∧
    (ws.foldl Cord.write c).content = c.content ++ ws.flatten := by
  induction ws generalizing c with
  | nil => simpa using h
  | cons w t ih =>
    obtain ⟨hwf, hcontent, _⟩ := write_wf c w h
    obtain ⟨h1, h2⟩ := ih (c.write w) hwf
    rw [List.foldl_cons]
    refine ⟨h1, ?_⟩
    rw [h2, hcontent, List.flatten_cons, List.append_assoc]

theorem cordNew_wf : Cord.new.wf := by
  constructor
  · intro s hs
    simp [Cord.new] at hs
  · rfl

/-- C1.  Append-buffer content fidelity: for every sequence of append
operations (raw bytes, fixed-width scalars, strings — each being some list
of bytes copied at the tail), the concatenation of the per-segment views
delivered by visit/apply in chain order (`Cord.content`, also flattened by
`Cord.str`) equals exactly the bytes written, in order, regardless of which
capacity-growth branch each append took; the cached `size_` agrees. -/
theorem cord_append_content_fidelity (ws : List (List Nat)) :
    (ws.foldl Cord.write Cord.new).content = ws.flatten ∧
    (ws.foldl Cord.write Cord.new).size_ = ws.flatten.length ∧
    (ws.foldl Cord.write Cord.new).str = ws.flatten := by
  obtain ⟨hwf, hcontent⟩ := foldl_write_wf ws Cord.new cordNew_wf
  have hc : (ws.foldl Cord.write Cord.new).content = ws.flatten := by
    rw [hcontent]
    rfl
  refine ⟨hc, ?_, ?_⟩
  · rw [hwf.2, hc]
  · rw [str_eq_content _ hwf, hc]

/-- Concrete Cord whose tail segment (capacity 8, 5 bytes used, hence more
than half full) forces the new-chained-segment branch of the growth
policy. -/
def growthCord : Cord := Cord.mk [⟨8, [0, 0, 0, 0, 0]⟩] 5

/-- C3, counterexample.  The claim says a new chained segment is sized
`clamp(max(capacity*2, needed), 256 KiB)` so that no allocation exceeds
256 KiB.  Requesting 512 KiB of room on a more-than-half-full 8-byte tail
allocates a 512 KiB segment: the code clamps the doubled capacity first and
only then raises it to the needed size, so the claimed formula (262144) and
the claimed ceiling are both violated. -/
theorem makeRoom_growth_counterexample :
    lastSegD ((growthCord.makeRoomForWrite 524288).segs) = ⟨524288, []⟩ ∧
    524288 > kMaxGrowthSize ∧
    (524288 : Nat) ≠ min (max (8 * 2) 524288) kMaxGrowthSize := by
  refine ⟨by decide, by decide, by decide⟩

/-- C3 (amended).  Capacity-growth policy, for a request of `n` bytes
exceeding the tail's free room: if the tail's used length is at most half
its capacity the same segment is grown in place to
`roundUp(capacity + needed)` (256-byte alignment quantum); otherwise a new
chained segment is allocated whose size is
`max(clamp(capacity*2, 256 KiB), n)` — the doubling is clamped to 256 KiB
first and then raised to the needed size, which agrees with the claimed
`clamp(max(capacity*2, n), 256 KiB)` and stays within 256 KiB exactly when
`n ≤ 256 KiB`, but exceeds 256 KiB whenever the single request `n` does. -/
theorem makeRoom_growth_policy (front : List Segment) (b : Segment) (sz n : Nat)
    (h : b.tailroom < n) :
    (b.length ≤ b.cap / 2 →
        (Cord.mk (front ++ [b]) sz).makeRoomForWrite n
          = Cord.mk (front ++ [{ b with cap := alignedSize (b.cap + (n - b.tailroom)) }]) sz) ∧
    (b.cap / 2 < b.length →
        (Cord.mk (front ++ [b]) sz).makeRoomForWrite n
          = Cord.mk ((front ++ [b]) ++ [⟨max (min (b.cap * 2) kMaxGrowthSize) n, []⟩]) sz) ∧
    (n ≤ kMaxGrowthSize →
        max (min (b.cap * 2) kMaxGrowthSize) n = min (max (b.cap * 2) n) kMaxGrowthSize ∧
        max (min (b.cap * 2) kMaxGrowthSize) n ≤ kMaxGrowthSize) := by
  have hfast : ¬ n ≤ b.tailroom := by omega
  have hres : (Cord.mk (front ++ [b]) sz).makeRoomForWrite n
      = (Cord.mk (front ++ [b]) sz).makeRoomForWriteSlow n := by
    simp [Cord.makeRoomForWrite, lastSegD_concat, hfast]
  refine ⟨?_, ?_, ?_⟩
  · intro hhalf
    rw [hres, makeRoomForWriteSlow_eq, if_pos hhalf]
  · intro hmore
    rw [hres, makeRoomForWriteSlow_eq, if_neg (by omega)]
  · intro hn
    omega

/-- Witness for C3: a 1000-byte request on a more-than-half-full 8-byte
tail chains a new segment of size `max(min(16, 256 KiB), 1000) = 1000`. -/
theorem makeRoom_growth_policy_witness :
    (Cord.mk ([] ++ [⟨8, [0, 0, 0, 0, 0]⟩]) 5).makeRoomForWrite 1000
      = Cord.mk (([] ++ [⟨8, [0, 0, 0, 0, 0]⟩])
          ++ [⟨max (min (8 * 2) kMaxGrowthSize) 1000, []⟩]) 5 :=
  (makeRoom_growth_policy [] ⟨8, [0, 0, 0, 0, 0]⟩ 5 1000 (by decide)).2.1 (by decide)

/-- C10.  Implicit precondition of `Cord::operator<<(const Cord&)`: with an
empty `rhs` it is a no-op; with a non-empty `rhs` and a null chain head it
dereferences the null head (modelled as `none`); under the precondition
that this chain is non-empty, the result's content is this content followed
by a (deep) copy of `rhs`'s content — `rhs` itself, taken by const
reference, is never modified — and well-formedness is preserved. -/
theorem cord_concat_precondition (lhs rhs : Cord) (h : rhs.wf) :
    (rhs.size_ = 0 → lhs.appendCord rhs = some lhs) ∧
    (lhs.segs = [] → rhs.size_ ≠ 0 → lhs.appendCord rhs = none) ∧
    (lhs.segs ≠ [] →
      (lhs.appendCord rhs).map Cord.content = some (lhs.content ++ rhs.content) ∧
      (lhs.appendCord rhs).map Cord.size_ = some (lhs.size_ + rhs.size_) ∧
      (lhs.wf → ∀ c, lhs.appendCord rhs = some c → c.wf)) := by
  by_cases h0 : rhs.size_ = 0
  · have hres : lhs.appendCord rhs = some lhs := by
      unfold Cord.appendCord
      rw [if_pos h0]
    have hrc : rhs.content = [] := by
      have h2 := h.2
      rw [h0] at h2
      exact List.eq_nil_of_length_eq_zero h2.symm
    refine ⟨fun _ => hres, fun _ hne => absurd h0 hne, fun _ => ⟨?_, ?_, ?_⟩⟩
    · rw [hres]
      show some lhs.content = some (lhs.content ++ rhs.content)
      rw [hrc, List.append_nil]
    · rw [hres]
      show some lhs.size_ = some (lhs.size_ + rhs.size_)
      rw [h0, Nat.add_zero]
    · intro hwf c hc
      rw [hres] at hc
      cases hc
      exact hwf
  · refine ⟨fun he => absurd he h0, ?_, ?_⟩
    · intro hnil _
      unfold Cord.appendCord
      rw [if_neg h0, if_pos hnil]
    · intro hne
      have hres : lhs.appendCord rhs
          = some ⟨lhs.segs ++ [⟨rhs.size_, rhs.content⟩], lhs.size_ + rhs.size_⟩ := by
        unfold Cord.appendCord
        rw [if_neg h0, if_neg hne]
      have hone : segsContent [Segment.mk rhs.size_ rhs.content] = rhs.content := by
        simp [segsContent]
      refine ⟨?_, ?_, ?_⟩
      · rw [hres]
        show some (segsContent (lhs.segs ++ [⟨rhs.size_, rhs.content⟩]))
            = some (lhs.content ++ rhs.content)
        rw [segsContent_append, hone]
        rfl
      · rw [hres]
        rfl
      · intro hwf c hc
        rw [hres] at hc
        cases hc
        constructor
        · intro s hs
          rcases List.mem_append.1 hs with hsL | hsb
          · exact hwf.1 s hsL
          · simp at hsb
            subst hsb
            show rhs.content.length ≤ rhs.size_
            have h2 := h.2
            omega
        · show lhs.size_ + rhs.size_
            = (segsContent (lhs.segs ++ [⟨rhs.size_, rhs.content⟩])).length
          rw [segsContent_append, hone, List.length_append]
          have h2 := hwf.2
          have h3 := h.2
          simp only [Cord.content] at h2
          omega

/-- Witness for C10: "ab" appended with a two-segment Cord holding "cde"
yields content "abcde". -/
theorem cord_concat_precondition_witness :
    ((Cord.mk [⟨256, [97, 98]⟩] 2).appendCord
        (Cord.mk [⟨256, [99]⟩, ⟨256, [100, 101]⟩] 3)).map Cord.content
      = some ((Cord.mk [⟨256, [97, 98]⟩] 2).content
          ++ (Cord.mk [⟨256, [99]⟩, ⟨256, [100, 101]⟩] 3).content) :=
  ((cord_concat_precondition (Cord.mk [⟨256, [97, 98]⟩] 2)
      (Cord.mk [⟨256, [99]⟩, ⟨256, [100, 101]⟩] 3) (by decide)).2.2 (by decide)).1

/-- Fueled bit-length: `bitLenAux fuel v` is the number of significant bits
of `v` provided `v < 2 ^ fuel` (structural recursion so that the kernel can
evaluate it). -/
def bitLenAux : Nat → Nat → Nat
  | 0, _ => 0
  | fuel + 1, v => if v = 0 then 0 else bitLenAux fuel (v / 2) + 1

/-- Bit length of a 64-bit value. -/
def bitLen (v : Nat) : Nat := bitLenAux 64 v

/-- Model of the compiler builtin `__builtin_clzl`: leading zeros of a
64-bit value (meaningful for nonzero `v < 2^64`, as at its use site). -/
def clz64 (v : Nat) : Nat := 64 - bitLen v

/-- Translation of `RowWriter::calcOccupiedBytes` (RowWriter.cpp lines
112-115): 1 for zero, otherwise `8 - __builtin_clzl(v) / 8`. -/
def calcOccupiedBytes (v : Nat) : Nat :=
  if v = 0 then 1 else 8 - clz64 v / 8

theorem bitLenAux_eq : ∀ fuel v, v < 2 ^ fuel →
    bitLenAux fuel v = if v = 0 then 0 else Nat.log2 v + 1 := by
  intro fuel
  induction fuel with
  | zero =>
    intro v hv
    have h0 : v = 0 := by simpa using hv
    simp [bitLenAux, h0]
  | succ n ih =>
    intro v hv
    by_cases h0 : v = 0
    · simp [bitLenAux, h0]
    · have hdiv : v / 2 < 2 ^ n := by
        have h2 : 2 ^ (n + 1) = 2 ^ n * 2 := by ring
        omega
      rw [show bitLenAux (n + 1) v = bitLenAux n (v / 2) + 1 from by simp [bitLenAux, h0],
          ih (v / 2) hdiv]
      by_cases h1 : v / 2 = 0
      · have hv1 : v = 1 := by omega
        subst hv1
        rw [if_pos rfl, if_neg h0]
        rw [Nat.log2]
        simp
      · have h2 : 2 ≤ v := by omega
        rw [if_neg h1, if_neg h0]
        have hlog : Nat.log2 v = Nat.log2 (v / 2) + 1 := by
          conv_lhs => rw [Nat.log2]
          simp [h2]
        omega

theorem calcOccupiedBytes_spec (v : Nat) (hv : v < 2 ^ 64) :
    1 ≤ calcOccupiedBytes v ∧ calcOccupiedBytes v ≤ 8 ∧
    v < 2 ^ (8 * calcOccupiedBytes v) ∧
    (∀ k, 1 ≤ k → v < 2 ^ (8 * k) → calcOccupiedBytes v ≤ k) ∧
    (v ≠ 0 → calcOccupiedBytes v = (Nat.log2 v + 1 + 7) / 8) := by
  by_cases h0 : v = 0
  · subst h0
    refine ⟨by simp [calcOccupiedBytes], by simp [calcOccupiedBytes], ?_, ?_, ?_⟩
    · simp [calcOccupiedBytes]
    · intro k hk _
      simpa [calcOccupiedBytes] using hk
    · intro hne
      exact absurd rfl hne
  · have hbit : bitLen v = Nat.log2 v + 1 := by
      unfold bitLen
      rw [bitLenAux_eq 64 v hv, if_neg h0]
    have hL63 : Nat.log2 v ≤ 63 := by
      have := (Nat.log2_lt h0).2 hv
      omega
    have hcalc : calcOccupiedBytes v = 8 - (64 - (Nat.log2 v + 1)) / 8 := by
      simp [calcOccupiedBytes, clz64, h0, hbit]
    have hupper : v < 2 ^ (Nat.log2 v + 1) := (Nat.log2_lt h0).1 (Nat.lt_succ_self _)
    have hlower : 2 ^ Nat.log2 v ≤ v := Nat.log2_self_le h0
    refine ⟨by omega, by omega, ?_, ?_, by omega⟩
    · have hexp : Nat.log2 v + 1 ≤ 8 * calcOccupiedBytes v := by omega
      calc v < 2 ^ (Nat.log2 v + 1) := hupper
        _ ≤ 2 ^ (8 * calcOccupiedBytes v) := Nat.pow_le_pow_right (by omega) hexp
    · intro k hk1 hk2
      have hlt : 2 ^ Nat.log2 v < 2 ^ (8 * k) := lt_of_le_of_lt hlower hk2
      have hLk : Nat.log2 v < 8 * k := (Nat.pow_lt_pow_iff_right (by omega)).1 hlt
      omega

/-- C6.  `calcOccupiedBytes` (the spec's `minimalWidth`) returns, for every
unsigned 64-bit value, the smallest byte count in 1..8 that can hold the
value — 1 for zero, otherwise `ceil(bitlength(v) / 8)` — including the
claimed boundary values. -/
theorem calcOccupiedBytes_minimalWidth (v : Nat) (hv : v < 2 ^ 64) :
    (1 ≤ calcOccupiedBytes v ∧ calcOccupiedBytes v ≤ 8 ∧
     v < 2 ^ (8 * calcOccupiedBytes v) ∧
     (∀ k, 1 ≤ k → v < 2 ^ (8 * k) → calcOccupiedBytes v ≤ k) ∧
     (v ≠ 0 → calcOccupiedBytes v = (Nat.log2 v + 1 + 7) / 8)) ∧
    calcOccupiedBytes 0 = 1 ∧ calcOccupiedBytes 255 = 1 ∧
    calcOccupiedBytes 256 = 2 ∧ calcOccupiedBytes 65535 = 2 ∧
    calcOccupiedBytes 65536 = 3 ∧ calcOccupiedBytes (2 ^ 63) = 8 := by
  refine ⟨calcOccupiedBytes_spec v hv, by decide, by decide, by decide, by decide,
    by decide, by decide⟩

/-- Witness for C6 at `v = 300`: width 2, minimal among all byte counts. -/
theorem calcOccupiedBytes_minimalWidth_witness :
    1 ≤ calcOccupiedBytes 300 ∧ calcOccupiedBytes 300 ≤ 8 ∧
    300 < 2 ^ (8 * calcOccupiedBytes 300) ∧
    (∀ k, 1 ≤ k → 300 < 2 ^ (8 * k) → calcOccupiedBytes 300 ≤ k) ∧
    (300 ≠ 0 → calcOccupiedBytes 300 = (Nat.log2 300 + 1 + 7) / 8) :=
  (calcOccupiedBytes_minimalWidth 300 (by decide)).1

/-- Supported column value types, `nebula::cpp2::SupportedType` as used by
RowWriter.cpp; `UNKNOWN` stands for every other enumerator, which the Skip
loop treats as fatal (`LOG(FATAL)`). -/
inductive SupportedType where
  | BOOL
  | INT
  | TIMESTAMP
  | FLOAT
  | DOUBLE
  | STRING
  | VID
  | UNKNOWN
deriving DecidableEq, Repr

/-- The external schema provider interface (spec section 6): field count,
per-field declared type, version (0 means unversioned). -/
structure Schema where
  numFields : Nat
  fieldType : Nat → SupportedType
  version : Nat

/-- State of a `RowWriter` in fixed-schema mode (a schema was supplied at
construction, so `schemaWriter_` is null): the body Cord, the next column
index `colNum_`, the recorded block offsets, and the one-way `encoded_`
flag. -/
structure RowWriter where
  schema : Schema
  cord : Cord
  colNum : Nat
  blockOffsets : List Nat
  encoded : Bool

/-- A freshly constructed fixed-schema RowWriter. -/
def RowWriter.new (sch : Schema) : RowWriter := ⟨sch, Cord.new, 0, [], false⟩

/-- Fueled varint encoder body: 7 payload bits per byte, least-significant
group first, continuation bit `0x80` on all but the last byte. -/
def encodeVarintAux : Nat → Nat → List Nat
  | 0, _ => []
  | fuel + 1, v => if v < 128 then [v] else (v % 128 + 128) :: encodeVarintAux fuel (v / 128)

/-- The folly varint encoder used by RowSetWriter (`folly::encodeVarint` is
external to the surveyed sources).  Modelled from the spec: a standard
variable-length unsigned integer encoding, 7 payload bits per byte with the
continuation bit set on all but the last byte.  The fuel of 10 bytes is the
`uint8_t buf[10]` / `maxRowLenBytes = 10` bound of the sources, exact for
every 64-bit value. -/
def encodeVarint (v : Nat) : List Nat := encodeVarintAux 10 v

/-- Default zero-value bytes written for a declared type by the Skip loop
(RowWriter.cpp lines 242-272): bool `false` (one byte), `writeInt(0)` for
INT / TIMESTAMP / STRING, four zero bytes for FLOAT, eight zero bytes for
DOUBLE and VID.  `wi` is the integer helper `writeInt` (declared in
RowWriter.h, outside the surveyed sources; spec section 9 leaves its byte
layout deliberately unspecified, so it is a parameter here).  `none` models
the fatal default branch. -/
def defaultOf (wi : Nat → List Nat) : SupportedType → Option (List Nat)
  | .BOOL => some [0]
  | .INT => some (wi 0)
  | .TIMESTAMP => some (wi 0)
  | .FLOAT => some (leBytes 0 4)
  | .DOUBLE => some (leBytes 0 8)
  | .STRING => some (wi 0)
  | .VID => some (leBytes 0 8)
  | .UNKNOWN => none

/-- The `for (i = colNum_; i < skipTo; i++)` loop of
`RowWriter::operator<<(Skip&&)` (RowWriter.cpp lines 242-279), with
`fuel = skipTo - i`: write the declared type's default value, then — after
completing field `i`, when `i != 0 && (i >> 4 << 4) == i` (that is,
`i % 16 = 0`) — record the current body size in `blockOffsets`. -/
def skipLoop (wi : Nat → List Nat) (sch : Schema) :
    Nat → Nat → Cord → List Nat → Option (Cord × List Nat)
  | _, 0, cord, offs => some (cord, offs)
  | i, fuel + 1, cord, offs =>
    match defaultOf wi (sch.fieldType i) with
    | none => none
    | some bs =>
      let c2 := cord.write bs
      let offs2 := if i ≠ 0 ∧ i % 16 = 0 then offs ++ [c2.size_] else offs
      skipLoop wi sch (i + 1) fuel c2 offs2

/-- Translation of `RowWriter::operator<<(Skip&&)` (RowWriter.cpp lines
233-283): skipping zero fields is a no-op; otherwise fields
`colNum_ .. min(colNum_ + n, numFields) - 1` are filled with defaults and
`colNum_` is set to that bound. -/
def RowWriter.skip (wi : Nat → List Nat) (w : RowWriter) (n : Nat) : Option RowWriter :=
  if n = 0 then some w
  else
    let skipTo := min (w.colNum + n) w.schema.numFields
    match skipLoop wi w.schema w.colNum (skipTo - w.colNum) w.cord w.blockOffsets with
    | none => none
    | some (c2, offs2) =>
      some { w with cord := c2, blockOffsets := offs2, colNum := skipTo }

/-- Translation of `RowWriter::size` (RowWriter.cpp lines 26-36): body
length, plus one offset width per recorded block offset, plus the version
width when the schema version is positive, plus the one header byte. -/
def RowWriter.size (w : RowWriter) : Nat :=
  let offsetBytes := calcOccupiedBytes w.cord.size_
  let verBytes := if w.schema.version > 0 then calcOccupiedBytes w.schema.version else 0
  w.cord.size_ + offsetBytes * w.blockOffsets.length + verBytes + 1

/-- The `headerBytes` count computed by `RowWriter::encodeToIOBuf` before
the version-less adjustment: one offset width per block offset, plus the
version width, plus the packed byte. -/
def rowHeaderBytes (w : RowWriter) : Nat :=
  calcOccupiedBytes w.cord.size_ * w.blockOffsets.length
    + calcOccupiedBytes w.schema.version + 1

/-- The header bytes synthesized by `RowWriter::encodeToIOBuf` (RowWriter.cpp
lines 66-94): the packed byte `offsetBytes - 1`, or-ed (with char
truncation, hence the `% 256`) with `verBytes << 5` when a version is
present; then the version's `verBytes` little-endian bytes when present;
then each block offset in `offsetBytes` little-endian bytes. -/
def rowHeader (w : RowWriter) : List Nat :=
  let version := w.schema.version
  let offsetBytes := calcOccupiedBytes w.cord.size_
  let verBytes := calcOccupiedBytes version
  if version > 0 then
    ((offsetBytes - 1) ||| (verBytes <<< 5)) % 256
      :: (leBytes version verBytes
          ++ w.blockOffsets.flatMap (fun o => leBytes o offsetBytes))
  else
    (offsetBytes - 1) % 256
      :: w.blockOffsets.flatMap (fun o => leBytes o offsetBytes)

/-- Translation of `RowWriter::encodeToIOBuf` (RowWriter.cpp lines 57-100)
in fixed-schema mode.  A second call returns a clone of the already
finalized chain.  Otherwise the remaining fields are skipped with defaults,
the header `rowHeader` is synthesized, and the header buffer (allocated
with `maxRowLenBytes = 10` spare headroom) is prepended to the body
chain. -/
def RowWriter.encodeToIOBuf (wi : Nat → List Nat) (w : RowWriter) :
    Option (List Nat × RowWriter) :=
  if w.encoded then some (w.cord.content, w)
  else
    match w.skip wi (w.schema.numFields - w.colNum) with
    | none => none
    | some w1 =>
      let cord2 := w1.cord.prependHeader ⟨rowHeaderBytes w1 + 10, rowHeader w1⟩
      some (cord2.content, { w1 with cord := cord2, encoded := true })

/-- Modelled from the spec: the write-epilogue macro `RW_CLEAN_UP_WRITE`
(declared in RowWriter.h, which is outside the surveyed sources).  Spec
section 4.2 step 7: advance `columnIndex`; after completing field index
`i`, if `i != 0` and `i mod 16 == 0`, append the current body size to
`blockOffsets`. -/
def RowWriter.cleanupWrite (w : RowWriter) : RowWriter :=
  let i := w.colNum
  let w2 := { w with colNum := i + 1 }
  if i ≠ 0 ∧ i % 16 = 0 then { w2 with blockOffsets := w2.blockOffsets ++ [w2.cord.size_] }
  else w2

/-- Translation of `RowWriter::operator<<(bool)` (RowWriter.cpp lines
123-139).  The column lookup macro `RW_GET_COLUMN_TYPE` is modelled from
the spec (section 4.2 step 1): writing past the declared field count is
fatal, here `none`.  A BOOL column receives the one-byte value; any other
declared type logs an error (the returned flag) and receives the bool zero
value `false`. -/
def RowWriter.writeBool (w : RowWriter) (v : Bool) : Option (RowWriter × Bool) :=
  if w.schema.numFields ≤ w.colNum then none
  else
    match w.schema.fieldType w.colNum with
    | .BOOL => some (({ w with cord := w.cord.write [if v then 1 else 0] }).cleanupWrite, false)
    | _ => some (({ w with cord := w.cord.write [0] }).cleanupWrite, true)

/-- Translation of `RowWriter::operator<<(float)` (RowWriter.cpp lines
142-160), over IEEE-754 bit patterns.  `cast32to64` stands for the host's
`static_cast<double>(float)`.  A FLOAT column receives the four value
bytes; a DOUBLE column receives the eight bytes of the promoted value; any
other declared type logs an error and receives the float zero value (four
zero bytes). -/
def RowWriter.writeFloat (cast32to64 : Nat → Nat) (w : RowWriter) (v : Nat) :
    Option (RowWriter × Bool) :=
  if w.schema.numFields ≤ w.colNum then none
  else
    match w.schema.fieldType w.colNum with
    | .FLOAT => some (({ w with cord := w.cord.write (leBytes v 4) }).cleanupWrite, false)
    | .DOUBLE =>
      some (({ w with cord := w.cord.write (leBytes (cast32to64 v) 8) }).cleanupWrite, false)
    | _ => some (({ w with cord := w.cord.write (leBytes 0 4) }).cleanupWrite, true)

/-- Translation of `RowWriter::operator<<(double)` (RowWriter.cpp lines
163-181), over IEEE-754 bit patterns.  `cast64to32` stands for the host's
`static_cast<float>(double)`.  A FLOAT column receives the four bytes of
the demoted value — without any diagnostic; a DOUBLE column receives the
eight value bytes; any other declared type logs an error and receives the
double zero value (eight zero bytes). -/
def RowWriter.writeDouble (cast64to32 : Nat → Nat) (w : RowWriter) (v : Nat) :
    Option (RowWriter × Bool) :=
  if w.schema.numFields ≤ w.colNum then none
  else
    match w.schema.fieldType w.colNum with
    | .FLOAT =>
      some (({ w with cord := w.cord.write (leBytes (cast64to32 v) 4) }).cleanupWrite, false)
    | .DOUBLE => some (({ w with cord := w.cord.write (leBytes v 8) }).cleanupWrite, false)
    | _ => some (({ w with cord := w.cord.write (leBytes 0 8) }).cleanupWrite, true)

/-- Translation of `RowWriter::operator<<(folly::StringPiece)`
(RowWriter.cpp lines 188-206): a STRING column receives `writeInt(size)`
followed by the raw bytes; any other declared type logs an error and
receives `writeInt(0)`. -/
def RowWriter.writeString (wi : Nat → List Nat) (w : RowWriter) (v : List Nat) :
    Option (RowWriter × Bool) :=
  if w.schema.numFields ≤ w.colNum then none
  else
    match w.schema.fieldType w.colNum with
    | .STRING =>
      some (({ w with cord := (w.cord.write (wi v.length)).write v }).cleanupWrite, false)
    | _ => some (({ w with cord := w.cord.write (wi 0) }).cleanupWrite, true)

/-- The by-value side of RowSetWriter: its growable inline buffer `data_`
(RowSetWriter.cpp; the ownership-transfer chain `head_` is not involved in
the by-value path). -/
structure RowSetWriter where
  data : List Nat
deriving DecidableEq, Repr

/-- Translation of `RowSetWriter::writeRowLength(int64_t)` (RowSetWriter.cpp
lines 21-27): append the varint encoding of the length to `data_`. -/
def RowSetWriter.writeRowLength (w : RowSetWriter) (len : Nat) : RowSetWriter :=
  { data := w.data ++ encodeVarint len }

/-- Translation of `RowSetWriter::addRow(const std::string&)`
(RowSetWriter.cpp lines 69-72): write the row's length prefix, then append
the row bytes. -/
def RowSetWriter.addRow (w : RowSetWriter) (row : List Nat) : RowSetWriter :=
  let w2 := w.writeRowLength row.length
  { data := w2.data ++ row }

/-- Value represented by a varint byte sequence (7 payload bits per byte,
least-significant group first): the decoder's view. -/
def varintValue : List Nat → Nat
  | [] => 0
  | b :: bs => b % 128 + 128 * varintValue bs

theorem varintValue_encodeVarintAux :
    ∀ fuel v, v < 128 ^ fuel → varintValue (encodeVarintAux fuel v) = v := by
  intro fuel
  induction fuel with
  | zero =>
    intro v hv
    have h0 : v = 0 := by simpa using hv
    simp [encodeVarintAux, varintValue, h0]
  | succ n ih =>
    intro v hv
    rw [encodeVarintAux]
    split
    · simp only [varintValue]
      omega
    · rename_i h
      have hdiv : v / 128 < 128 ^ n := by
        have hp : 128 ^ (n + 1) = 128 ^ n * 128 := by ring
        omega
      simp only [varintValue, ih (v / 128) hdiv]
      omega

theorem varintValue_encodeVarint (v : Nat) (hv : v < 2 ^ 70) :
    varintValue (encodeVarint v) = v := by
  have h : (128 : Nat) ^ 10 = 2 ^ 70 := by norm_num
  exact varintValue_encodeVarintAux 10 v (by omega)

theorem encodeVarintAux_ne_nil (fuel v : Nat) : encodeVarintAux (fuel + 1) v ≠ [] := by
  rw [encodeVarintAux]
  split <;> simp

theorem encodeVarint_continuationAux :
    ∀ fuel v, v < 128 ^ fuel →
      (∀ b ∈ (encodeVarintAux fuel v).dropLast, 128 ≤ b ∧ b < 256) ∧
      (∀ b, (encodeVarintAux fuel v).getLast? = some b → b < 128) := by
  intro fuel
  induction fuel with
  | zero =>
    intro v hv
    constructor
    · intro b hb
      simp [encodeVarintAux] at hb
    · intro b hb
      simp [encodeVarintAux] at hb
  | succ n ih =>
    intro v hv
    rw [encodeVarintAux]
    split
    · rename_i h
      constructor
      · intro b hb
        simp at hb
      · intro b hb
        simp at hb
        omega
    · rename_i h
      have hn0 : n ≠ 0 := by
        rintro rfl
        simp at hv
        omega
      have hdiv : v / 128 < 128 ^ n := by
        have hp : 128 ^ (n + 1) = 128 ^ n * 128 := by ring
        omega
      obtain ⟨ih1, ih2⟩ := ih (v / 128) hdiv
      have hne : encodeVarintAux n (v / 128) ≠ [] := by
        obtain ⟨m, hm⟩ := Nat.exists_eq_succ_of_ne_zero hn0
        rw [hm]
        exact encodeVarintAux_ne_nil m (v / 128)
      obtain ⟨c, t, hct⟩ := List.exists_cons_of_ne_nil hne
      constructor
      · intro b hb
        rw [List.dropLast_cons_of_ne_nil hne] at hb
        rcases List.mem_cons.1 hb with hb1 | hb2
        · subst hb1
          omega
        · exact ih1 b hb2
      · intro b hb
        rw [hct, List.getLast?_cons_cons] at hb
        rw [hct] at ih2
        exact ih2 b hb

theorem encodeVarint_continuation (v : Nat) (hv : v < 2 ^ 70) :
    (∀ b ∈ (encodeVarint v).dropLast, 128 ≤ b ∧ b < 256) ∧
    (∀ b, (encodeVarint v).getLast? = some b → b < 128) := by
  have h : (128 : Nat) ^ 10 = 2 ^ 70 := by norm_num
  exact encodeVarint_continuationAux 10 v (by omega)

theorem rowSet_foldl_addRow (rows : List (List Nat)) (w : RowSetWriter) :
    (rows.foldl RowSetWriter.addRow w).data
      = w.data ++ (rows.map (fun r => encodeVarint r.length ++ r)).flatten := by
  induction rows generalizing w with
  | nil => simp
  | cons r t ih =>
    rw [List.foldl_cons, ih]
    simp [RowSetWriter.addRow, RowSetWriter.writeRowLength]

/-- C9.  Row-set inline framing: a sequence of by-value `addRow` calls
leaves the inline buffer holding, in call order, each row's varint length
prefix (7 payload bits per byte, continuation bit set on all but the last
byte, decodable back to the length) followed by the row bytes, with no
separators; in particular `addRow("ab")` then `addRow("cde")` on an empty
buffer yields exactly `[0x02, a, b, 0x03, c, d, e]`. -/
theorem rowSet_inline_framing :
    (∀ rows : List (List Nat),
      (rows.foldl RowSetWriter.addRow ⟨[]⟩).data
        = (rows.map (fun r => encodeVarint r.length ++ r)).flatten) ∧
    (∀ v : Nat, v < 2 ^ 70 → varintValue (encodeVarint v) = v ∧
      (∀ b ∈ (encodeVarint v).dropLast, 128 ≤ b ∧ b < 256) ∧
      (∀ b, (encodeVarint v).getLast? = some b → b < 128)) ∧
    (RowSetWriter.addRow (RowSetWriter.addRow ⟨[]⟩ [97, 98]) [99, 100, 101]).data
      = [2, 97, 98, 3, 99, 100, 101] := by
  refine ⟨?_, ?_, by decide⟩
  · intro rows
    rw [rowSet_foldl_addRow]
    rfl
  · intro v hv
    exact ⟨varintValue_encodeVarint v hv, (encodeVarint_continuation v hv).1,
      (encodeVarint_continuation v hv).2⟩

/-- C8.  Finalize idempotence: whenever a first `encodeToIOBuf` call
succeeds, a second call returns the exact same bytes and the exact same
writer state — it takes the already-encoded branch (a cached clone), so no
header synthesis, no block-offset change and no body change happens. -/
theorem encode_idempotent (wi : Nat → List Nat) (w : RowWriter) (o1 : List Nat)
    (w1 : RowWriter) (h : RowWriter.encodeToIOBuf wi w = some (o1, w1)) :
    RowWriter.encodeToIOBuf wi w1 = some (o1, w1) := by
  have key : w1.encoded = true ∧ o1 = w1.cord.content := by
    unfold RowWriter.encodeToIOBuf at h
    by_cases he : w.encoded
    · rw [if_pos he] at h
      injection h with h2
      injection h2 with ha hb
      subst ha
      subst hb
      exact ⟨he, rfl⟩
    · rw [if_neg he] at h
      cases hskip : w.skip wi (w.schema.numFields - w.colNum) with
      | none =>
        rw [hskip] at h
        simp at h
      | some w2 =>
        rw [hskip] at h
        dsimp only at h
        injection h with h2
        injection h2 with ha hb
        subst ha
        subst hb
        exact ⟨rfl, rfl⟩
  obtain ⟨henc, ho⟩ := key
  unfold RowWriter.encodeToIOBuf
  rw [if_pos henc, ho]

/-- Schema with no fields and no version, for the idempotence witness. -/
def sch0 : Schema := ⟨0, fun _ => SupportedType.BOOL, 0⟩

/-- Witness for C8: finalizing the empty-schema writer yields the single
header byte `[0]`, and finalizing again returns the identical result. -/
theorem encode_idempotent_witness :
    RowWriter.encodeToIOBuf encodeVarint
        (RowWriter.mk sch0 (Cord.mk [⟨12, [0]⟩] 1) 0 [] true)
      = some ([0], RowWriter.mk sch0 (Cord.mk [⟨12, [0]⟩] 1) 0 [] true) :=
  encode_idempotent encodeVarint (RowWriter.new sch0) [0]
    (RowWriter.mk sch0 (Cord.mk [⟨12, [0]⟩] 1) 0 [] true) rfl

theorem prependHeader_content (c : Cord) (hdr : Segment) :
    (c.prependHeader hdr).content = hdr.data ++ c.content := by
  unfold Cord.prependHeader
  split
  · rename_i h
    simp [Cord.content, segsContent, h]
  · simp [Cord.content, segsContent]

theorem skip_zero (wi : Nat → List Nat) (w : RowWriter)
    (hcol : w.colNum = w.schema.numFields) :
    w.skip wi (w.schema.numFields - w.colNum) = some w := by
  unfold RowWriter.skip
  rw [hcol]
  simp

theorem encodeToIOBuf_eq_of_full (wi : Nat → List Nat) (w : RowWriter)
    (henc : w.encoded = false) (hcol : w.colNum = w.schema.numFields) :
    RowWriter.encodeToIOBuf wi w
      = some (rowHeader w ++ w.cord.content,
          { w with cord := w.cord.prependHeader ⟨rowHeaderBytes w + 10, rowHeader w⟩,
                   encoded := true }) := by
  unfold RowWriter.encodeToIOBuf
  rw [if_neg (by rw [henc]; simp), skip_zero wi w hcol]
  dsimp only
  rw [prependHeader_content]

theorem flatMap_leBytes_length (l : List Nat) (ob : Nat) :
    (l.flatMap (fun o => leBytes o ob)).length = ob * l.length := by
  induction l with
  | nil => simp
  | cons a t ih =>
    simp only [List.flatMap_cons, List.length_append, leBytes_length, ih, List.length_cons]
    ring

theorem rowHeader_length (w : RowWriter) :
    (rowHeader w).length
      = 1 + (if w.schema.version > 0 then calcOccupiedBytes w.schema.version else 0)
        + calcOccupiedBytes w.cord.size_ * w.blockOffsets.length := by
  unfold rowHeader
  by_cases hv : w.schema.version > 0
  · rw [if_pos hv, if_pos hv]
    simp only [List.length_cons, List.length_append, leBytes_length, flatMap_leBytes_length]
    ring
  · rw [if_neg hv, if_neg hv]
    simp only [List.length_cons, flatMap_leBytes_length]
    ring

/-- C2.  For a fully-written row (column index has reached the schema's
field count) that is not yet finalized, `size()` equals
`bodySize + offsetWidth * blockOffsets.count + versionWidth + 1` with
`versionWidth = 0` for version 0 (first conjunct, the source formula read
back without any state mutation — `size` is a pure function of the state),
and it equals the exact byte length of the buffer produced by finalize
(second conjunct), for any schema version and offset width. -/
theorem rowWriter_size_eq_encoded_length (wi : Nat → List Nat) (w : RowWriter)
    (hcol : w.colNum = w.schema.numFields) (henc : w.encoded = false)
    (hwf : w.cord.wf) :
    w.size = w.cord.size_ + calcOccupiedBytes w.cord.size_ * w.blockOffsets.length
        + (if w.schema.version > 0 then calcOccupiedBytes w.schema.version else 0) + 1 ∧
    (RowWriter.encodeToIOBuf wi w).map (fun p => p.1.length) = some w.size := by
  refine ⟨rfl, ?_⟩
  rw [encodeToIOBuf_eq_of_full wi w henc hcol]
  show some ((rowHeader w ++ w.cord.content).length) = some w.size
  congr 1
  rw [List.length_append, rowHeader_length]
  have hbody : w.cord.content.length = w.cord.size_ := hwf.2.symm
  rw [hbody]
  unfold RowWriter.size
  ring

/-- Schema with no fields and version 5, for the size witness. -/
def sch5 : Schema := ⟨0, fun _ => SupportedType.BOOL, 5⟩

/-- Witness for C2: the fresh writer over a zero-field version-5 schema has
`size() = 0 + 0 + 1 + 1 = 3`... computed by the theorem itself. -/
theorem rowWriter_size_eq_encoded_length_witness :
    (RowWriter.new sch5).size
        = (RowWriter.new sch5).cord.size_
          + calcOccupiedBytes (RowWriter.new sch5).cord.size_
            * (RowWriter.new sch5).blockOffsets.length
          + (if (RowWriter.new sch5).schema.version > 0
              then calcOccupiedBytes (RowWriter.new sch5).schema.version else 0) + 1 ∧
    (RowWriter.encodeToIOBuf encodeVarint (RowWriter.new sch5)).map (fun p => p.1.length)
      = some (RowWriter.new sch5).size :=
  rowWriter_size_eq_encoded_length encodeVarint (RowWriter.new sch5) rfl rfl (by decide)

theorem lor_shift5 : ∀ a < 8, ∀ b < 8, a ||| (b <<< 5) = a + b * 32 := by decide

/-- C5 (amended).  Header layout of a finalized full row, provided the
schema version fits in 7 bytes (version < 2^56; for larger versions the
`verBytes << 5` packing overflows the char header byte — see the
counterexample): the output is one packed byte carrying `offsetWidth - 1`
in its low five bits and — exactly when a version is present —
`versionWidth` in its high three bits; then the version value in
`versionWidth` little-endian bytes (entirely absent for version 0); then
every recorded block offset, in recorded (ascending) order, each occupying
`offsetWidth` bytes and decoding back to the offset; then the body
bytes. -/
theorem header_layout (wi : Nat → List Nat) (w : RowWriter)
    (henc : w.encoded = false) (hcol : w.colNum = w.schema.numFields)
    (hsz : w.cord.size_ < 2 ^ 64) (hver : w.schema.version < 2 ^ 56)
    (hfit : ∀ o ∈ w.blockOffsets, o ≤ w.cord.size_) :
    (RowWriter.encodeToIOBuf wi w).map Prod.fst
      = some ((calcOccupiedBytes w.cord.size_ - 1
            + (if w.schema.version > 0 then calcOccupiedBytes w.schema.version * 32 else 0))
          :: ((if w.schema.version > 0
                then leBytes w.schema.version (calcOccupiedBytes w.schema.version) else [])
              ++ (w.blockOffsets.flatMap
                    (fun o => leBytes o (calcOccupiedBytes w.cord.size_))
                  ++ w.cord.content))) ∧
    ((calcOccupiedBytes w.cord.size_ - 1
        + (if w.schema.version > 0 then calcOccupiedBytes w.schema.version * 32 else 0)) % 32
      = calcOccupiedBytes w.cord.size_ - 1) ∧
    (w.schema.version > 0 →
      (calcOccupiedBytes w.cord.size_ - 1 + calcOccupiedBytes w.schema.version * 32) / 32
          = calcOccupiedBytes w.schema.version ∧
      fromLEBytes (leBytes w.schema.version (calcOccupiedBytes w.schema.version))
        = w.schema.version) ∧
    (∀ o ∈ w.blockOffsets,
      (leBytes o (calcOccupiedBytes w.cord.size_)).length
          = calcOccupiedBytes w.cord.size_ ∧
      fromLEBytes (leBytes o (calcOccupiedBytes w.cord.size_)) = o) := by
  obtain ⟨how1, how8, howlt, _, _⟩ := calcOccupiedBytes_spec w.cord.size_ hsz
  have hver64 : w.schema.version < 2 ^ 64 := lt_trans hver (by norm_num)
  obtain ⟨hvb1, hvb8, hvblt, hvbmin, _⟩ := calcOccupiedBytes_spec w.schema.version hver64
  have hvb7 : calcOccupiedBytes w.schema.version ≤ 7 := hvbmin 7 (by omega) (by exact hver)
  refine ⟨?_, ?_, ?_, ?_⟩
  · rw [encodeToIOBuf_eq_of_full wi w henc hcol]
    show some (rowHeader w ++ w.cord.content) = _
    congr 1
    unfold rowHeader
    by_cases hv : w.schema.version > 0
    · rw [if_pos hv, if_pos hv, if_pos hv]
      have h1 : (calcOccupiedBytes w.cord.size_ - 1)
            ||| (calcOccupiedBytes w.schema.version <<< 5)
          = calcOccupiedBytes w.cord.size_ - 1
            + calcOccupiedBytes w.schema.version * 32 :=
        lor_shift5 (calcOccupiedBytes w.cord.size_ - 1) (by omega)
          (calcOccupiedBytes w.schema.version) (by omega)
      rw [h1, Nat.mod_eq_of_lt (by omega)]
      simp [List.append_assoc]
    · rw [if_neg hv, if_neg hv, if_neg hv]
      rw [Nat.mod_eq_of_lt (by omega)]
      simp
  · by_cases hv : w.schema.version > 0
    · rw [if_pos hv]
      omega
    · rw [if_neg hv]
      omega
  · intro hv
    refine ⟨by omega, ?_⟩
    exact fromLEBytes_leBytes _ _ hvblt
  · intro o ho
    refine ⟨leBytes_length _ _, ?_⟩
    have hoo : o ≤ w.cord.size_ := hfit o ho
    exact fromLEBytes_leBytes _ _ (by omega)

/-- Schema with no fields and the 2^56 version that overflows the packed
header byte. -/
def schBigVer : Schema := ⟨0, fun _ => SupportedType.BOOL, 2 ^ 56⟩

/-- C5, counterexample.  For version `2^56` the version width is 8, and
`header |= verBytes << 5` truncates `8 << 5 = 256` to a char: the packed
byte of the finalized row is 0, so its high bits hold 0, not the
versionWidth 8 the claim requires — the row even looks unversioned. -/
theorem header_versionWidth_overflow_counterexample :
    calcOccupiedBytes ((RowWriter.new schBigVer).schema.version) = 8 ∧
    (RowWriter.encodeToIOBuf encodeVarint (RowWriter.new schBigVer)).map
        (fun p => p.1.headD 99) = some 0 ∧
    (0 : Nat) / 32 = 0 ∧ (0 : Nat) ≠ 8 := by
  refine ⟨by decide, by decide, rfl, by decide⟩

/-- Concrete versioned writer state (version 300, a 3-byte body, one
recorded offset 2) for the header-layout witness. -/
def wHeaderWitness : RowWriter :=
  RowWriter.mk ⟨0, fun _ => SupportedType.BOOL, 300⟩ (Cord.mk [⟨256, [7, 7, 7]⟩] 3) 0 [2] false

/-- Witness for C5: finalizing `wHeaderWitness` yields packed byte
`0 + 2*32 = 64`, the two version bytes of 300, the one offset byte, then
the body. -/
theorem header_layout_witness :
    (RowWriter.encodeToIOBuf encodeVarint wHeaderWitness).map Prod.fst
      = some ((calcOccupiedBytes wHeaderWitness.cord.size_ - 1
            + (if wHeaderWitness.schema.version > 0
                then calcOccupiedBytes wHeaderWitness.schema.version * 32 else 0))
          :: ((if wHeaderWitness.schema.version > 0
                then leBytes wHeaderWitness.schema.version
                  (calcOccupiedBytes wHeaderWitness.schema.version) else [])
              ++ (wHeaderWitness.blockOffsets.flatMap
                    (fun o => leBytes o (calcOccupiedBytes wHeaderWitness.cord.size_))
                  ++ wHeaderWitness.cord.content))) :=
  (header_layout encodeVarint wHeaderWitness rfl rfl (by decide) (by decide) (by decide)).1

/-- Total byte length of the default values of fields `i .. i + m - 1`. -/
def sumDefaults (wi : Nat → List Nat) (sch : Schema) : Nat → Nat → Nat
  | _, 0 => 0
  | i, m + 1 =>
    ((defaultOf wi (sch.fieldType i)).getD []).length + sumDefaults wi sch (i + 1) m

/-- Block-offset entries recorded by the skip loop over fields
`i .. i + fuel - 1` when the body size starts at `base`. -/
def offsEntries (wi : Nat → List Nat) (sch : Schema) : Nat → Nat → Nat → List Nat
  | _, _, 0 => []
  | i, base, fuel + 1 =>
    (if i ≠ 0 ∧ i % 16 = 0
      then [base + ((defaultOf wi (sch.fieldType i)).getD []).length] else [])
      ++ offsEntries wi sch (i + 1)
          (base + ((defaultOf wi (sch.fieldType i)).getD []).length) fuel

theorem skipLoop_spec (wi : Nat → List Nat) (sch : Schema) (fuel : Nat) :
    ∀ i cord offs,
      (∀ j, i ≤ j → j < i + fuel → (defaultOf wi (sch.fieldType j)).isSome = true) →
      ∃ c2, skipLoop wi sch i fuel cord offs
          = some (c2, offs ++ offsEntries wi sch i cord.size_ fuel) ∧
        c2.size_ = cord.size_ + sumDefaults wi sch i fuel ∧
        (cord.wf → c2.wf) := by
  induction fuel with
  | zero =>
    intro i cord offs _
    exact ⟨cord, by simp [skipLoop, offsEntries], by simp [sumDefaults], fun h => h⟩
  | succ n ih =>
    intro i cord offs hs
    have hsome : (defaultOf wi (sch.fieldType i)).isSome = true :=
      hs i (le_refl i) (by omega)
    obtain ⟨bs, hbs⟩ := Option.isSome_iff_exists.1 hsome
    have hd : ((defaultOf wi (sch.fieldType i)).getD []) = bs := by
      rw [hbs]
      rfl
    obtain ⟨hw1, hw2, _, _⟩ := write_spec cord bs
    obtain ⟨c2, hc2, hsz, hwf⟩ := ih (i + 1) (cord.write bs)
      (if i ≠ 0 ∧ i % 16 = 0 then offs ++ [(cord.write bs).size_] else offs)
      (fun j hj1 hj2 => hs j (by omega) (by omega))
    refine ⟨c2, ?_, ?_, ?_⟩
    · rw [show skipLoop wi sch i (n + 1) cord offs
          = skipLoop wi sch (i + 1) n (cord.write bs)
              (if i ≠ 0 ∧ i % 16 = 0 then offs ++ [(cord.write bs).size_] else offs)
        from by simp [skipLoop, hbs]]
      rw [hc2]
      have hentry : offsEntries wi sch i cord.size_ (n + 1)
          = (if i ≠ 0 ∧ i % 16 = 0 then [cord.size_ + bs.length] else [])
            ++ offsEntries wi sch (i + 1) (cord.size_ + bs.length) n := by
        rw [offsEntries, hd]
      rw [hentry, hw2]
      by_cases hcond : i ≠ 0 ∧ i % 16 = 0
      · rw [if_pos hcond, if_pos hcond, List.append_assoc]
      · rw [if_neg hcond, if_neg hcond, List.nil_append]
    · rw [hsz, hw2]
      have hsum : sumDefaults wi sch i (n + 1)
          = bs.length + sumDefaults wi sch (i + 1) n := by
        rw [sumDefaults, hd]
      rw [hsum]
      omega
    · intro hwfc
      exact hwf (write_wf cord bs hwfc).1

theorem offsEntries_eq_filterMap (wi : Nat → List Nat) (sch : Schema) (fuel : Nat) :
    ∀ i base, offsEntries wi sch i base fuel
      = (List.range fuel).filterMap
          (fun k => if (i + k) ≠ 0 ∧ (i + k) % 16 = 0
            then some (base + sumDefaults wi sch i (k + 1)) else none) := by
  induction fuel with
  | zero =>
    intro i base
    simp [offsEntries]
  | succ n ih =>
    intro i base
    rw [offsEntries, List.range_succ_eq_map, List.filterMap_cons, List.filterMap_map]
    have hsum1 : sumDefaults wi sch i 1
        = ((defaultOf wi (sch.fieldType i)).getD []).length := by
      rw [sumDefaults]
      rfl
    have hfg : ∀ k ∈ List.range n,
        ((fun k => if (i + k) ≠ 0 ∧ (i + k) % 16 = 0
            then some (base + sumDefaults wi sch i (k + 1)) else none) ∘ Nat.succ) k
        = (fun k => if ((i + 1) + k) ≠ 0 ∧ ((i + 1) + k) % 16 = 0
            then some ((base + ((defaultOf wi (sch.fieldType i)).getD []).length)
                + sumDefaults wi sch (i + 1) (k + 1)) else none) k := by
      intro k _
      simp only [Function.comp]
      have h1 : i + Nat.succ k = (i + 1) + k := by omega
      have h2 : base + sumDefaults wi sch i (Nat.succ k + 1)
          = (base + ((defaultOf wi (sch.fieldType i)).getD []).length)
            + sumDefaults wi sch (i + 1) (k + 1) := by
        rw [show Nat.succ k + 1 = (k + 1) + 1 from rfl, sumDefaults]
        omega
      rw [h1, h2]
    rw [List.filterMap_congr hfg, ← ih (i + 1)
      (base + ((defaultOf wi (sch.fieldType i)).getD []).length)]
    by_cases hc : i ≠ 0 ∧ i % 16 = 0
    · have : (if (i + 0) ≠ 0 ∧ (i + 0) % 16 = 0
          then some (base + sumDefaults wi sch i (0 + 1)) else none)
          = some (base + ((defaultOf wi (sch.fieldType i)).getD []).length) := by
        rw [Nat.add_zero, if_pos hc, Nat.zero_add, hsum1]
      rw [this, if_pos hc]
      rfl
    · have : (if (i + 0) ≠ 0 ∧ (i + 0) % 16 = 0
          then some (base + sumDefaults wi sch i (0 + 1)) else none)
          = none := by
        rw [Nat.add_zero, if_neg hc]
      rw [this, if_neg hc]
      rfl

/-- An 18-boolean unversioned schema, the spec's end-to-end scenario. -/
def schBool18 : Schema := ⟨18, fun _ => SupportedType.BOOL, 0⟩

/-- Writing `true` into all 18 fields of `schBool18` through the bool
value-stream operator. -/
def wBool18 : Option RowWriter :=
  (List.range 18).foldl (fun o _ => o.bind (fun w => (w.writeBool true).map Prod.fst))
    (some (RowWriter.new schBool18))

/-- C4.  Sparse block index: skipping (writing with defaults) all N fields
of any schema whose field types are all supported records a block offset
exactly for every completed field index `i` with `i ≠ 0` and
`i mod 16 = 0`, each entry equal to the body byte size right after field
`i`; the column index ends at N and the body size is the total default
size.  For the 18-boolean scenario (via 18 `writeBool` calls), exactly one
offset `[17]` is recorded, `offsetWidth = calcOccupiedBytes 18 = 1`, and
`size()` and the finalized byte length are both 20. -/
theorem blockOffsets_every16 (wi : Nat → List Nat) (sch : Schema)
    (hsupp : ∀ i, i < sch.numFields → (defaultOf wi (sch.fieldType i)).isSome = true) :
    ((RowWriter.new sch).skip wi sch.numFields).map
        (fun v => (v.colNum, v.cord.size_, v.blockOffsets))
      = some (sch.numFields, sumDefaults wi sch 0 sch.numFields,
          (List.range sch.numFields).filterMap
            (fun i => if i ≠ 0 ∧ i % 16 = 0
              then some (sumDefaults wi sch 0 (i + 1)) else none)) ∧
    wBool18.map RowWriter.blockOffsets = some [17] ∧
    wBool18.map RowWriter.size = some 20 ∧
    calcOccupiedBytes 18 = 1 ∧
    (wBool18.bind (RowWriter.encodeToIOBuf encodeVarint)).map (fun p => p.1.length)
      = some 20 := by
  refine ⟨?_, by decide, by decide, by decide, by decide⟩
  by_cases hN : sch.numFields = 0
  · simp [RowWriter.skip, hN, RowWriter.new, Cord.new, sumDefaults]
  · obtain ⟨c2, hsl, hsz, _⟩ := skipLoop_spec wi sch sch.numFields 0 Cord.new []
      (fun j h1 h2 => hsupp j (by omega))
    have h0 : Cord.new.size_ = 0 := rfl
    rw [h0] at hsl hsz
    simp only [RowWriter.skip]
    rw [if_neg hN]
    have hproj1 : (RowWriter.new sch).colNum = 0 := rfl
    have hproj2 : (RowWriter.new sch).cord = Cord.new := rfl
    have hproj3 : (RowWriter.new sch).blockOffsets = [] := rfl
    have hproj4 : (RowWriter.new sch).schema = sch := rfl
    rw [hproj1, hproj2, hproj3, hproj4, Nat.zero_add, Nat.min_self, Nat.sub_zero, hsl]
    show some (sch.numFields, c2.size_, [] ++ offsEntries wi sch 0 0 sch.numFields)
        = some (sch.numFields, sumDefaults wi sch 0 sch.numFields,
            (List.range sch.numFields).filterMap
              (fun i => if i ≠ 0 ∧ i % 16 = 0
                then some (sumDefaults wi sch 0 (i + 1)) else none))
    rw [hsz, Nat.zero_add, List.nil_append,
      offsEntries_eq_filterMap wi sch sch.numFields 0 0]
    refine congrArg some (congrArg (fun l => (sch.numFields, sumDefaults wi sch 0 sch.numFields, l)) ?_)
    apply List.filterMap_congr
    intro k _
    rw [Nat.zero_add, Nat.zero_add]

/-- A 17-field all-INT unversioned schema for the C4 witness. -/
def sch17 : Schema := ⟨17, fun _ => SupportedType.INT, 0⟩

/-- Witness for C4: skipping all 17 INT fields records exactly the offset
after field 16, and the 18-boolean scenario facts hold concretely. -/
theorem blockOffsets_every16_witness :
    ((RowWriter.new sch17).skip encodeVarint sch17.numFields).map
        (fun v => (v.colNum, v.cord.size_, v.blockOffsets))
      = some (sch17.numFields, sumDefaults encodeVarint sch17 0 sch17.numFields,
          (List.range sch17.numFields).filterMap
            (fun i => if i ≠ 0 ∧ i % 16 = 0
              then some (sumDefaults encodeVarint sch17 0 (i + 1)) else none)) ∧
    wBool18.map RowWriter.blockOffsets = some [17] ∧
    wBool18.map RowWriter.size = some 20 ∧
    calcOccupiedBytes 18 = 1 ∧
    (wBool18.bind (RowWriter.encodeToIOBuf encodeVarint)).map (fun p => p.1.length)
      = some 20 :=
  blockOffsets_every16 encodeVarint sch17 (by decide)

theorem cleanupWrite_cord (w : RowWriter) : w.cleanupWrite.cord = w.cord := by
  by_cases h : w.colNum ≠ 0 ∧ w.colNum % 16 = 0
  · simp [RowWriter.cleanupWrite, h]
  · simp [RowWriter.cleanupWrite, h]

theorem cleanupWrite_colNum (w : RowWriter) : w.cleanupWrite.colNum = w.colNum + 1 := by
  by_cases h : w.colNum ≠ 0 ∧ w.colNum % 16 = 0
  · simp [RowWriter.cleanupWrite, h]
  · simp [RowWriter.cleanupWrite, h]

theorem writeStep_proj (w : RowWriter) (bs : List Nat) (flag : Bool) :
    (some (({ w with cord := w.cord.write bs }).cleanupWrite, flag) :
        Option (RowWriter × Bool)).map (fun p => (p.1.cord.content, p.1.colNum, p.2))
      = some (w.cord.content ++ bs, w.colNum + 1, flag) := by
  have h1 := cleanupWrite_cord { w with cord := w.cord.write bs }
  have h2 := cleanupWrite_colNum { w with cord := w.cord.write bs }
  have h3 : ({ w with cord := w.cord.write bs } : RowWriter).cord = w.cord.write bs := rfl
  have h4 : ({ w with cord := w.cord.write bs } : RowWriter).colNum = w.colNum := rfl
  rw [h3] at h1
  rw [h4] at h2
  rw [Option.map_some']
  dsimp only
  rw [h1, h2, (write_spec w.cord bs).1]

/-- Schema with a single BOOL field, for the type-coercion
counterexample. -/
def sch1Bool : Schema := ⟨1, fun _ => SupportedType.BOOL, 0⟩

/-- C7, counterexample.  Writing a double into the declared BOOL field does
not write the declared type's default (`false`, the single byte `[0]` that
the Skip path writes for BOOL): it writes the eight bytes of the double
zero value, while still emitting the diagnostic and advancing the column
index. -/
theorem typeCoercion_counterexample :
    ((RowWriter.new sch1Bool).writeDouble (fun x => x) 0).map
        (fun p => (p.1.cord.content, p.1.colNum, p.2))
      = some (List.replicate 8 0, 1, true) ∧
    defaultOf encodeVarint SupportedType.BOOL = some [0] ∧
    List.replicate 8 (0 : Nat) ≠ [0] :=
  ⟨by decide, by decide, by decide⟩

/-- C7 (amended).  Type-coercion rule for the bool / float / double value
writers on a writer whose column index is in range: a value whose natural
type matches the declared type is written directly; float and double are
converted between the two floating types in either direction and written
with no diagnostic (promotion `static_cast<double>` for float→DOUBLE, and
equally silent demotion `static_cast<float>` for double→FLOAT); any other
mismatch emits a diagnostic and writes the zero value of the value's own
natural type (not the declared type's default).  In every case exactly the
stated bytes are appended to the body, the column index advances by one,
and the writer continues — a single mismatched value never aborts the
row. -/
theorem typeCoercion_rule (w : RowWriter) (c32 c64 : Nat → Nat) (vf vd : Nat) (b : Bool)
    (hcol : w.colNum < w.schema.numFields) :
    ((w.schema.fieldType w.colNum = SupportedType.FLOAT →
        (w.writeFloat c32 vf).map (fun p => (p.1.cord.content, p.1.colNum, p.2))
          = some (w.cord.content ++ leBytes vf 4, w.colNum + 1, false)) ∧
     (w.schema.fieldType w.colNum = SupportedType.DOUBLE →
        (w.writeFloat c32 vf).map (fun p => (p.1.cord.content, p.1.colNum, p.2))
          = some (w.cord.content ++ leBytes (c32 vf) 8, w.colNum + 1, false)) ∧
     (w.schema.fieldType w.colNum ≠ SupportedType.FLOAT →
      w.schema.fieldType w.colNum ≠ SupportedType.DOUBLE →
        (w.writeFloat c32 vf).map (fun p => (p.1.cord.content, p.1.colNum, p.2))
          = some (w.cord.content ++ leBytes 0 4, w.colNum + 1, true))) ∧
    ((w.schema.fieldType w.colNum = SupportedType.FLOAT →
        (w.writeDouble c64 vd).map (fun p => (p.1.cord.content, p.1.colNum, p.2))
          = some (w.cord.content ++ leBytes (c64 vd) 4, w.colNum + 1, false)) ∧
     (w.schema.fieldType w.colNum = SupportedType.DOUBLE →
        (w.writeDouble c64 vd).map (fun p => (p.1.cord.content, p.1.colNum, p.2))
          = some (w.cord.content ++ leBytes vd 8, w.colNum + 1, false)) ∧
     (w.schema.fieldType w.colNum ≠ SupportedType.FLOAT →
      w.schema.fieldType w.colNum ≠ SupportedType.DOUBLE →
        (w.writeDouble c64 vd).map (fun p => (p.1.cord.content, p.1.colNum, p.2))
          = some (w.cord.content ++ leBytes 0 8, w.colNum + 1, true))) ∧
    ((w.schema.fieldType w.colNum = SupportedType.BOOL →
        (w.writeBool b).map (fun p => (p.1.cord.content, p.1.colNum, p.2))
          = some (w.cord.content ++ [if b then 1 else 0], w.colNum + 1, false)) ∧
     (w.schema.fieldType w.colNum ≠ SupportedType.BOOL →
        (w.writeBool b).map (fun p => (p.1.cord.content, p.1.colNum, p.2))
          = some (w.cord.content ++ [0], w.colNum + 1, true))) := by
  have hne : ¬ w.schema.numFields ≤ w.colNum := by omega
  refine ⟨⟨?_, ?_, ?_⟩, ⟨?_, ?_, ?_⟩, ⟨?_, ?_⟩⟩
  · intro heq
    unfold RowWriter.writeFloat
    rw [if_neg hne, heq]
    exact writeStep_proj w (leBytes vf 4) false
  · intro heq
    unfold RowWriter.writeFloat
    rw [if_neg hne, heq]
    exact writeStep_proj w (leBytes (c32 vf) 8) false
  · intro h1 h2
    unfold RowWriter.writeFloat
    rw [if_neg hne]
    cases hft : w.schema.fieldType w.colNum <;>
      first
        | exact absurd hft h1
        | exact absurd hft h2
        | exact writeStep_proj w (leBytes 0 4) true
  · intro heq
    unfold RowWriter.writeDouble
    rw [if_neg hne, heq]
    exact writeStep_proj w (leBytes (c64 vd) 4) false
  · intro heq
    unfold RowWriter.writeDouble
    rw [if_neg hne, heq]
    exact writeStep_proj w (leBytes vd 8) false
  · intro h1 h2
    unfold RowWriter.writeDouble
    rw [if_neg hne]
    cases hft : w.schema.fieldType w.colNum <;>
      first
        | exact absurd hft h1
        | exact absurd hft h2
        | exact writeStep_proj w (leBytes 0 8) true
  · intro heq
    unfold RowWriter.writeBool
    rw [if_neg hne, heq]
    exact writeStep_proj w [if b then 1 else 0] false
  · intro h1
    unfold RowWriter.writeBool
    rw [if_neg hne]
    cases hft : w.schema.fieldType w.colNum <;>
      first
        | exact absurd hft h1
        | exact writeStep_proj w [0] true

/-- Schema of two DOUBLE fields, for the coercion witness. -/
def schDD : Schema := ⟨2, fun _ => SupportedType.DOUBLE, 0⟩

/-- Witness for C7: promoting a float value (bit pattern 5, promotion
modelled by an arbitrary concrete function) into the DOUBLE column appends
exactly the promoted eight-byte image, advances the column, and emits no
diagnostic. -/
theorem typeCoercion_rule_witness :
    ((RowWriter.new schDD).writeFloat (fun x => x + 1000) 5).map
        (fun p => (p.1.cord.content, p.1.colNum, p.2))
      = some ((RowWriter.new schDD).cord.content ++ leBytes ((fun x => x + 1000) 5) 8,
          (RowWriter.new schDD).colNum + 1, false) :=
  ((typeCoercion_rule (RowWriter.new schDD) (fun x => x + 1000) (fun x => x) 5 0 true
      (by decide)).1).2.1 rfl

/-- Witness for C9: the concrete two-row scenario, via the framing
theorem. -/
theorem rowSet_inline_framing_witness :
    (RowSetWriter.addRow (RowSetWriter.addRow ⟨[]⟩ [97, 98]) [99, 100, 101]).data
      = [2, 97, 98, 3, 99, 100, 101] :=
  rowSet_inline_framing.2.2
